import Mathlib

/-!
# Shallow embedding of the CodeBuddy pipeline (src/codebuddy.py)

File texts are modelled as lists of characters.  The text-level operations
of the source that involve the unsafe-evaluation token are specialised to
the fixed token "eval(" that the code uses:

* `containsEval` models the membership test `"eval(" in text` (line 75);
* `fixEvalText` models `txt.replace("eval(", "ast.literal_eval(")`
  (line 137): a single left-to-right scan replacing each non-overlapping
  occurrence, exactly as CPython `str.replace` does;
* `countEval` counts the non-overlapping occurrences of "eval(" in a text.
  It is the measuring notion of "N occurrences" used by the claims; the
  token "eval(" cannot overlap itself (no proper non-empty suffix of it is
  one of its prefixes), so this is the plain occurrence count.

Python syntax trees are modelled by `PyNode`; only the node shapes the
program inspects (`ast.Import`, `ast.ImportFrom`, `ast.FunctionDef`) are
distinguished, every other node kind is `other`.  `astWalk` models
CPython `ast.walk`: a deque-based traversal that pops the front of the
queue and pushes the children of the popped node at the back, i.e. a
breadth-first (level-order) traversal.
-/

namespace CodeBuddy

/-- The replacement text used by the fix: `"ast.literal_eval("`. -/
def litTok : List Char := "ast.literal_eval(".toList

/-- Whether a text starts with the token `"eval("`. -/
def startsEval : List Char → Bool
  | 'e' :: 'v' :: 'a' :: 'l' :: '(' :: _ => true
  | _ => false

/-- `"eval(" in text` — the substring test of StaticAnalyzerAgent (line 75). -/
def containsEval : List Char → Bool
  | 'e' :: 'v' :: 'a' :: 'l' :: '(' :: _ => true
  | _ :: rest => containsEval rest
  | [] => false

/-- Number of non-overlapping occurrences of `"eval("` in a text. -/
def countEval : List Char → Nat
  | 'e' :: 'v' :: 'a' :: 'l' :: '(' :: rest => countEval rest + 1
  | _ :: rest => countEval rest
  | [] => 0

/-- `txt.replace("eval(", "ast.literal_eval(")` — BugFixerAgent line 137. -/
def fixEvalText : List Char → List Char
  | 'e' :: 'v' :: 'a' :: 'l' :: '(' :: rest => litTok ++ fixEvalText rest
  | c :: rest => c :: fixEvalText rest
  | [] => []

/-- A Python AST node, restricted to the shapes the program inspects.
`functionDef` records the function name, the number of lines of its
reconstructed source segment (`len(src.split("\n"))` in the source, line
83), and the child statements of its body.  Compound statements, the
module node and every other node kind are `other` with their children. -/
inductive PyNode where
  | importStmt (names : List String)
  | importFrom (mod : Option String)
  | functionDef (name : String) (srcLines : Nat) (body : List PyNode)
  | other (body : List PyNode)

/-- The child nodes of a node, in field order (as `ast.iter_child_nodes`). -/
def nodeChildren : PyNode → List PyNode
  | .functionDef _ _ body => body
  | .other body => body
  | _ => []

/-- Total number of nodes in a forest (termination measure for traversals). -/
def nodeListSize : List PyNode → Nat
  | [] => 0
  | .importStmt _ :: rest => 1 + nodeListSize rest
  | .importFrom _ :: rest => 1 + nodeListSize rest
  | .functionDef _ _ body :: rest => 1 + nodeListSize body + nodeListSize rest
  | .other body :: rest => 1 + nodeListSize body + nodeListSize rest
termination_by l => sizeOf l
decreasing_by
  all_goals simp_wf
  all_goals omega

/-- CPython `ast.walk`: pop the front node, yield it, and push its children
at the back of the queue — a breadth-first, level-order traversal. -/
def astWalk : List PyNode → List PyNode
  | [] => []
  | n :: rest => n :: astWalk (rest ++ nodeChildren n)
termination_by q => nodeListSize q
decreasing_by
  have happ : ∀ (a b : List PyNode),
      nodeListSize (a ++ b) = nodeListSize a + nodeListSize b := by
    intro a b
    induction a with
    | nil => simp [nodeListSize]
    | cons hd tl ih => cases hd <;> simp [nodeListSize, List.cons_append, ih] <;> omega
  have hcons : ∀ (n : PyNode) (rest : List PyNode),
      nodeListSize (n :: rest) = 1 + nodeListSize (nodeChildren n) + nodeListSize rest := by
    intro n rest
    cases n <;> simp [nodeListSize, nodeChildren]
  rw [happ, hcons]
  omega

/-- `ast.walk(ast.parse(text))` for a module whose body is `body`: the walk
yields the module node itself first (modelled as an `other` node) and then
the breadth-first traversal of its descendants. -/
def moduleWalk (body : List PyNode) : List PyNode := astWalk [PyNode.other body]

/-- Modelled from the spec: a stable, deterministic pre-order (depth-first)
traversal of a forest of syntax-tree nodes.  The spec requires defect
emission "in the order the tree traversal visits them (a stable,
deterministic pre-order is required)"; this definition follows those words
and is compared against the walk order the code actually uses. -/
def specPreorderList : List PyNode → List PyNode
  | [] => []
  | n :: rest => n :: (specPreorderList (nodeChildren n) ++ specPreorderList rest)
termination_by l => nodeListSize l
decreasing_by
  all_goals
    have hcons : ∀ (n : PyNode) (rest : List PyNode),
        nodeListSize (n :: rest) = 1 + nodeListSize (nodeChildren n) + nodeListSize rest := by
      intro n rest
      cases n <;> simp [nodeListSize, nodeChildren]
    rw [hcons]
    omega

/-- Defect kinds emitted by the static analyzer (the `"type"` key). -/
inductive DefectKind where
  | security
  | complexity
deriving DecidableEq

/-- A detected defect: the dict `{"type": ..., "msg": ...}` of the source. -/
structure Defect where
  kind : DefectKind
  msg : String
deriving DecidableEq

/-- The message of a security defect (line 76 of the source). -/
def secMsg : String := "Unsafe eval() found"

/-- The single-quote character of the source f-string (code point 39). -/
def quoteChar : Char := Char.ofNat 39

/-- The complexity message of line 86 of the source: the function name
wrapped in single quotes between the two fixed fragments. -/
def complexityMsg (name : String) : String :=
  ⟨"Function ".toList ++ [quoteChar] ++ name.toList ++ [quoteChar] ++ " is too long".toList⟩

/-- The security check of StaticAnalyzerAgent (lines 75-76): one defect for
the whole file when the token occurs, none otherwise. -/
def securityIssues (text : List Char) : List Defect :=
  if containsEval text then [{ kind := .security, msg := secMsg }] else []

/-- The complexity check applied to one walked node (lines 81-87): a
function definition whose source segment spans more than 120 lines yields
one defect naming it; every other node yields nothing. -/
def complexityOf : PyNode → Option Defect
  | .functionDef name srcLines _ =>
      if 120 < srcLines then some { kind := .complexity, msg := complexityMsg name } else none
  | _ => none

/-- The complexity defects of a parsed file, in walk order. -/
def complexityIssues (body : List PyNode) : List Defect :=
  (moduleWalk body).filterMap complexityOf

/-- Whether a node is a function definition named `nm` whose source segment
spans more than 120 lines (the shape the claims quantify over). -/
def oversizedNamed (nm : String) : PyNode → Bool
  | .functionDef nm2 srcLines _ => decide (nm2 = nm ∧ 120 < srcLines)
  | _ => false

/-- A source file as the pipeline observes it: its path, its text, the
result of `ast.parse` on its text (`none` when parsing raises), and the
result of `compile(...)` on its text (`some msg` when compilation raises,
used only by the fallback branch of the test harness). -/
structure PyFile where
  path : String
  text : List Char
  parsed : Option (List PyNode)
  compileError : Option String

/-- The defect list of one file (loop body of StaticAnalyzerAgent.run,
lines 71-91): security issues are appended first, then — only when the
file parses — the complexity defects in walk order; a parse failure is
swallowed and leaves only the security issues. -/
def analyzeFile (f : PyFile) : List Defect :=
  securityIssues f.text ++
    (match f.parsed with
      | some body => complexityIssues body
      | none => [])

/-- StaticAnalyzerAgent.run: `issues[f] = file_issues` for each file in
order; the Python dict keyed by distinct paths is modelled as the
association list in insertion order. -/
def staticAnalyzer (files : List PyFile) : List (String × List Defect) :=
  files.foldl (fun issues f => issues ++ [(f.path, analyzeFile f)]) []

/-- `name.split(".")[0]` — the top-level component of a dotted module path. -/
def topModule (s : String) : String := (s.splitOn ".").headD ""

/-- The import contributions of one walked node (lines 58-61). -/
def importsOfNode : PyNode → List String
  | .importStmt names => names.map topModule
  | .importFrom (some m) => [topModule m]
  | _ => []

/-- `sorted(set(l))`: the distinct elements in ascending order. -/
def sortedDedup (l : List String) : List String :=
  List.insertionSort (fun a b => a ≤ b) l.dedup

/-- The dependency entry of one file (loop body of DependencyMapperAgent.run,
lines 53-64): the sorted, deduplicated top-level imports of the parsed
tree, and the empty list when parsing fails. -/
def fileDeps (f : PyFile) : List String :=
  match f.parsed with
  | some body => sortedDedup ((moduleWalk body).flatMap importsOfNode)
  | none => []

/-- DependencyMapperAgent.run: `deps[f] = ...` for each file in order. -/
def dependencyMapper (files : List PyFile) : List (String × List String) :=
  files.foldl (fun deps f => deps ++ [(f.path, fileDeps f)]) []

/-- The outcome of the external `subprocess.run` call: either a completed
process with its exit code and captured streams, or a raised exception
(timeout, spawn failure, ...) carrying its message. -/
inductive ProcOutcome where
  | completed (returncode : Int) (stdout : String) (stderr : String)
  | failed (msg : String)

/-- The process-invocation wrapper of lines 26-38 (its source name is not a
legal Lean identifier): returns the triple of the completed process, and
the triple of exit code 1, empty stdout and the exception message as
stderr when the call raises. -/
def runCmd (o : ProcOutcome) : Int × String × String :=
  match o with
  | .completed code out err => (code, out, err)
  | .failed msg => (1, "", msg)

/-- The two result shapes of TestRunnerAgent.run: the external-runner dict
`{"success", "stdout", "stderr"}` and the fallback dict
`{"success", "errors"}`. -/
inductive TestResult where
  | external (success : Bool) (stdout : String) (stderr : String)
  | fallback (success : Bool) (errors : List (String × String))
deriving DecidableEq

/-- The `success` field, the only cross-shape field. -/
def testSuccess : TestResult → Bool
  | .external s _ _ => s
  | .fallback s _ => s

/-- The error list of the fallback branch (lines 102-107): one entry per
file whose compilation raises, in file order. -/
def compileErrors (files : List PyFile) : List (String × String) :=
  files.foldl
    (fun errors f =>
      match f.compileError with
      | some e => errors ++ [(f.path, e)]
      | none => errors) []

/-- The repository as the test harness observes it: whether a `tests`
directory exists, the outcome of the `pytest -q` invocation (relevant only
when it does), and the source files (relevant only when it does not). -/
structure RepoState where
  hasTestsDir : Bool
  pytestOutcome : ProcOutcome
  files : List PyFile

/-- TestRunnerAgent.run (lines 96-109): the external branch when a tests
directory exists (`success` = exit code zero), else the fallback
compile-check branch (`success` = zero compile errors). -/
def testRunner (repo : RepoState) : TestResult :=
  if repo.hasTestsDir then
    match runCmd repo.pytestOutcome with
    | (code, out, err) => .external (decide (code = 0)) out err
  else
    .fallback (decide ((compileErrors repo.files).length = 0)) (compileErrors repo.files)

/-- The three action kinds of the plan. -/
inductive ActionKind where
  | fix_eval
  | refactor_note
  | investigate_test_failure
deriving DecidableEq

/-- A remediation action: the dict `{"file": ..., "action": ...}`;
`investigate_test_failure` carries no file (`"file": None`). -/
structure Action where
  file : Option String
  action : ActionKind
deriving DecidableEq

/-- The fixed defect-to-action table of FixPlannerAgent (lines 117-120):
security maps to `fix_eval`, complexity to `refactor_note`; each branch
appends one action carrying the file. -/
def defectAction (file : String) (i : Defect) : Action :=
  match i.kind with
  | .security => { file := some file, action := .fix_eval }
  | .complexity => { file := some file, action := .refactor_note }

/-- FixPlannerAgent.run (lines 112-125): iterate the report in file order
and each file in defect order appending one action per defect, then append
one `investigate_test_failure` action with no file when the test result is
a failure. -/
def fixPlanner (issues : List (String × List Defect)) (tests : TestResult) : List Action :=
  let plan := issues.foldl
    (fun plan p => p.2.foldl (fun plan i => plan ++ [defectAction p.1 i]) plan) []
  if testSuccess tests then plan
  else plan ++ [{ file := none, action := .investigate_test_failure }]

/-! Concrete sample values used by witnesses and counterexamples. -/

/-- A parsed module with one oversized top-level function. -/
def exBody : List PyNode := [.functionDef "big" 130 []]

/-- A file containing one occurrence of the unsafe token. -/
def exFile : PyFile :=
  { path := "a.py", text := "x = eval(s)".toList, parsed := some exBody, compileError := none }

/-- A file already rewritten to the safe call. -/
def exLitFile : PyFile :=
  { path := "b.py", text := "y = ast.literal_eval(z)".toList, parsed := some [],
    compileError := none }

/-- A file whose text fails to parse. -/
def badFile : PyFile :=
  { path := "bad.py", text := "def (".toList, parsed := none, compileError := some "SyntaxError" }

/-- A module with an oversized nested function: breadth-first walk order
(A, B, A1) differs from pre-order (A, A1, B). -/
def nestedBody : List PyNode :=
  [.functionDef "A" 125 [.functionDef "A1" 122 []], .functionDef "B" 121 []]

/-- The file carrying `nestedBody`. -/
def nestedFile : PyFile :=
  { path := "n.py", text := [], parsed := some nestedBody, compileError := none }

/-- A repo whose tests directory exists and whose pytest invocation raises. -/
def repoFail : RepoState :=
  { hasTestsDir := true, pytestOutcome := .failed "TimeoutExpired", files := [] }

/-! ## Properties of the token-level operations -/

theorem starts_pos (r : List Char) :
    startsEval ('e' :: 'v' :: 'a' :: 'l' :: '(' :: r) = true := rfl

theorem starts_elim {c : Char} {cs : List Char} (h : startsEval (c :: cs) = true) :
    ∃ r, c :: cs = 'e' :: 'v' :: 'a' :: 'l' :: '(' :: r := by
  rw [startsEval.eq_def] at h
  split at h
  · next r heq => exact ⟨r, heq⟩
  · cases h

theorem fix_pos (r : List Char) :
    fixEvalText ('e' :: 'v' :: 'a' :: 'l' :: '(' :: r) = litTok ++ fixEvalText r := rfl

theorem count_pos (r : List Char) :
    countEval ('e' :: 'v' :: 'a' :: 'l' :: '(' :: r) = countEval r + 1 := rfl

theorem contains_pos (r : List Char) :
    containsEval ('e' :: 'v' :: 'a' :: 'l' :: '(' :: r) = true := rfl

theorem fix_neg {c : Char} {cs : List Char} (h : startsEval (c :: cs) = false) :
    fixEvalText (c :: cs) = c :: fixEvalText cs := by
  rw [fixEvalText.eq_def]
  split
  · next r heq =>
    rw [heq] at h
    simp [startsEval] at h
  · next hd tl hno heq =>
    injection heq with h1 h2
    subst h1; subst h2; rfl
  · next heq => cases heq

theorem count_neg {c : Char} {cs : List Char} (h : startsEval (c :: cs) = false) :
    countEval (c :: cs) = countEval cs := by
  rw [countEval.eq_def]
  split
  · next r heq =>
    rw [heq] at h
    simp [startsEval] at h
  · next hd tl hno heq =>
    injection heq with h1 h2
    subst h2; rfl
  · next heq => cases heq

theorem contains_neg {c : Char} {cs : List Char} (h : startsEval (c :: cs) = false) :
    containsEval (c :: cs) = containsEval cs := by
  rw [containsEval.eq_def]
  split
  · next r heq =>
    rw [heq] at h
    simp [startsEval] at h
  · next hd tl hno heq =>
    injection heq with h1 h2
    subst h2; rfl
  · next heq => cases heq

theorem fix_shape_p {s r : List Char} (h : fixEvalText s = '(' :: r) :
    ∃ r2, s = '(' :: r2 := by
  cases s with
  | nil => simp [fixEvalText] at h
  | cons c cs =>
    cases hs : startsEval (c :: cs) with
    | true =>
      obtain ⟨r3, heq⟩ := starts_elim hs
      rw [heq, fix_pos] at h
      simp [litTok] at h
    | false =>
      rw [fix_neg hs] at h
      injection h with h1 h2
      exact ⟨cs, by rw [h1]⟩

theorem fix_shape_lp {s r : List Char} (h : fixEvalText s = 'l' :: '(' :: r) :
    ∃ r2, s = 'l' :: '(' :: r2 := by
  cases s with
  | nil => simp [fixEvalText] at h
  | cons c cs =>
    cases hs : startsEval (c :: cs) with
    | true =>
      obtain ⟨r3, heq⟩ := starts_elim hs
      rw [heq, fix_pos] at h
      simp [litTok] at h
    | false =>
      rw [fix_neg hs] at h
      injection h with h1 h2
      obtain ⟨r2, hcs⟩ := fix_shape_p h2
      exact ⟨r2, by rw [h1, hcs]⟩

theorem fix_shape_al {s r : List Char} (h : fixEvalText s = 'a' :: 'l' :: '(' :: r) :
    ∃ r2, s = 'a' :: 'l' :: '(' :: r2 := by
  cases s with
  | nil => simp [fixEvalText] at h
  | cons c cs =>
    cases hs : startsEval (c :: cs) with
    | true =>
      obtain ⟨r3, heq⟩ := starts_elim hs
      rw [heq, fix_pos] at h
      simp [litTok] at h
    | false =>
      rw [fix_neg hs] at h
      injection h with h1 h2
      obtain ⟨r2, hcs⟩ := fix_shape_lp h2
      exact ⟨r2, by rw [h1, hcs]⟩

theorem fix_shape_val {s r : List Char} (h : fixEvalText s = 'v' :: 'a' :: 'l' :: '(' :: r) :
    ∃ r2, s = 'v' :: 'a' :: 'l' :: '(' :: r2 := by
  cases s with
  | nil => simp [fixEvalText] at h
  | cons c cs =>
    cases hs : startsEval (c :: cs) with
    | true =>
      obtain ⟨r3, heq⟩ := starts_elim hs
      rw [heq, fix_pos] at h
      simp [litTok] at h
    | false =>
      rw [fix_neg hs] at h
      injection h with h1 h2
      obtain ⟨r2, hcs⟩ := fix_shape_al h2
      exact ⟨r2, by rw [h1, hcs]⟩

/-- Rewriting the tail of a text cannot create a token occurrence at a
position where none started: the replacement never begins with a proper
suffix of the token. -/
theorem fix_no_new_start {c : Char} {cs : List Char} (h : startsEval (c :: cs) = false) :
    startsEval (c :: fixEvalText cs) = false := by
  cases hs : startsEval (c :: fixEvalText cs) with
  | false => rfl
  | true =>
    obtain ⟨r, heq⟩ := starts_elim hs
    injection heq with h1 h2
    obtain ⟨r2, hcs⟩ := fix_shape_val h2
    rw [h1, hcs, starts_pos] at h
    cases h

/-- The replacement text contains exactly one occurrence of the token,
at its tail, no matter what follows it. -/
theorem countEval_litTok_append (s : List Char) :
    countEval (litTok ++ s) = countEval s + 1 := by
  show countEval
      ('a' :: 's' :: 't' :: '.' :: 'l' :: 'i' :: 't' :: 'e' :: 'r' :: 'a' :: 'l' :: '_' ::
        'e' :: 'v' :: 'a' :: 'l' :: '(' :: s) = countEval s + 1
  rw [count_neg, count_neg, count_neg, count_neg, count_neg, count_neg, count_neg, count_neg,
    count_neg, count_neg, count_neg, count_neg, count_pos]
  all_goals rfl

theorem countEval_fixEvalText : ∀ s : List Char, countEval (fixEvalText s) = countEval s
  | [] => rfl
  | c :: cs => by
    cases hs : startsEval (c :: cs) with
    | true =>
      obtain ⟨r, heq⟩ := starts_elim hs
      rw [heq, fix_pos, countEval_litTok_append, count_pos, countEval_fixEvalText r]
    | false =>
      rw [fix_neg hs, count_neg (fix_no_new_start hs), count_neg hs,
        countEval_fixEvalText cs]
termination_by s => s.length
decreasing_by
  · simp
  · have := congrArg List.length heq
    simp only [List.length_cons] at this ⊢
    omega

theorem length_fixEvalText : ∀ s : List Char, (fixEvalText s).length = s.length + 12 * countEval s
  | [] => rfl
  | c :: cs => by
    cases hs : startsEval (c :: cs) with
    | true =>
      obtain ⟨r, heq⟩ := starts_elim hs
      rw [heq, fix_pos, count_pos]
      have hr := length_fixEvalText r
      simp [litTok, hr]
      omega
    | false =>
      rw [fix_neg hs, count_neg hs]
      have hc := length_fixEvalText cs
      simp [hc]
      omega
termination_by s => s.length
decreasing_by
  · simp
  · have := congrArg List.length heq
    simp only [List.length_cons] at this ⊢
    omega

theorem fixEvalText_of_countEval_zero : ∀ s : List Char, countEval s = 0 → fixEvalText s = s
  | [], _ => rfl
  | c :: cs, h => by
    cases hs : startsEval (c :: cs) with
    | true =>
      obtain ⟨r, heq⟩ := starts_elim hs
      rw [heq, count_pos] at h
      cases h
    | false =>
      rw [count_neg hs] at h
      rw [fix_neg hs, fixEvalText_of_countEval_zero cs h]
termination_by s => s.length
decreasing_by
  simp

theorem fixEvalText_eq_self_iff (s : List Char) : fixEvalText s = s ↔ countEval s = 0 := by
  constructor
  · intro h
    have hl := length_fixEvalText s
    rw [h] at hl
    omega
  · exact fixEvalText_of_countEval_zero s

theorem containsEval_iff : ∀ s : List Char, containsEval s = true ↔ 0 < countEval s
  | [] => by simp [containsEval, countEval]
  | c :: cs => by
    cases hs : startsEval (c :: cs) with
    | true =>
      obtain ⟨r, heq⟩ := starts_elim hs
      rw [heq, contains_pos, count_pos]
      simp
    | false =>
      rw [contains_neg hs, count_neg hs]
      exact containsEval_iff cs
termination_by s => s.length
decreasing_by
  simp

theorem containsEval_cons_of (c : Char) {cs : List Char} (h : containsEval cs = true) :
    containsEval (c :: cs) = true := by
  cases hs : startsEval (c :: cs) with
  | true =>
    obtain ⟨r, heq⟩ := starts_elim hs
    rw [heq, contains_pos]
  | false =>
    rw [contains_neg hs]
    exact h

theorem containsEval_of_substring : ∀ s : List Char, "eval(".toList <:+: s → containsEval s = true
  | [], h => by
    rw [List.infix_nil] at h
    exact absurd h (by decide)
  | c :: cs, h => by
    obtain ⟨u, v, huv⟩ := h
    cases u with
    | nil =>
      have hst : startsEval (c :: cs) = true := by
        have h2 : "eval(".toList ++ v = c :: cs := by simpa using huv
        rw [← h2]
        exact starts_pos v
      obtain ⟨r, heq⟩ := starts_elim hst
      rw [heq]
      exact contains_pos r
    | cons x u2 =>
      have h2 : u2 ++ "eval(".toList ++ v = cs := by
        have := huv
        simp only [List.cons_append] at this
        injection this with hx hrest
      exact containsEval_cons_of c (containsEval_of_substring cs ⟨u2, v, h2⟩)
termination_by s => s.length
decreasing_by
  simp

/-! ## Properties of the tree walk and the defect detector -/

theorem nodeListSize_append (a b : List PyNode) :
    nodeListSize (a ++ b) = nodeListSize a + nodeListSize b := by
  induction a with
  | nil => simp [nodeListSize]
  | cons hd tl ih => cases hd <;> simp [nodeListSize, List.cons_append, ih] <;> omega

theorem nodeListSize_cons (n : PyNode) (rest : List PyNode) :
    nodeListSize (n :: rest) = 1 + nodeListSize (nodeChildren n) + nodeListSize rest := by
  cases n <;> simp [nodeListSize, nodeChildren]

/-- The walk enumerates every node of the queued forest exactly once. -/
theorem length_astWalk (q : List PyNode) : (astWalk q).length = nodeListSize q := by
  induction q using astWalk.induct with
  | case1 => simp [astWalk, nodeListSize]
  | case2 n rest ih =>
    rw [astWalk, List.length_cons, ih, nodeListSize_append, nodeListSize_cons]
    omega

theorem complexityOf_kind {n : PyNode} {d : Defect} (h : complexityOf n = some d) :
    d.kind = DefectKind.complexity := by
  cases n with
  | functionDef nm ln ch =>
    simp only [complexityOf] at h
    by_cases hl : 120 < ln
    · rw [if_pos hl] at h
      injection h with h2
      rw [← h2]
    · rw [if_neg hl] at h
      cases h
  | importStmt names => cases h
  | importFrom m => cases h
  | other ch => cases h

theorem complexityMsg_inj {a b : String} (h : complexityMsg a = complexityMsg b) : a = b := by
  unfold complexityMsg at h
  injection h with h1
  have h2 := List.append_cancel_right h1
  have h3 := List.append_cancel_right h2
  have h4 := List.append_cancel_left h3
  exact String.ext h4

theorem countP_filterMap {α β : Type} (g : α → Option β) (p : β → Bool) :
    ∀ l : List α, (l.filterMap g).countP p = l.countP (fun a => ((g a).map p).getD false)
  | [] => rfl
  | a :: as => by
    cases hg : g a with
    | none =>
      simp [List.filterMap_cons, hg, List.countP_cons, countP_filterMap g p as]
    | some b =>
      simp [List.filterMap_cons, hg, List.countP_cons, countP_filterMap g p as]

theorem complexityOf_pointwise (nm : String) (n : PyNode) :
    ((complexityOf n).map
        (fun d => decide (d.kind = DefectKind.complexity ∧ d.msg = complexityMsg nm))).getD false
      = oversizedNamed nm n := by
  cases n with
  | functionDef nm2 ln ch =>
    by_cases hl : 120 < ln
    · simp only [complexityOf, oversizedNamed, if_pos hl, Option.map_some', Option.getD_some]
      rw [decide_eq_decide]
      constructor
      · rintro ⟨-, h2⟩
        exact ⟨complexityMsg_inj h2, hl⟩
      · rintro ⟨h2, -⟩
        exact ⟨trivial, by rw [h2]⟩
    · simp only [complexityOf, oversizedNamed, if_neg hl, Option.map_none', Option.getD_none]
      simp [hl]
  | importStmt names => simp [complexityOf, oversizedNamed]
  | importFrom m => simp [complexityOf, oversizedNamed]
  | other ch => simp [complexityOf, oversizedNamed]

theorem analyzeFile_parsed {f : PyFile} {body : List PyNode} (h : f.parsed = some body) :
    analyzeFile f = securityIssues f.text ++ complexityIssues body := by
  unfold analyzeFile
  rw [h]

theorem analyzeFile_unparsed {f : PyFile} (h : f.parsed = none) :
    analyzeFile f = securityIssues f.text := by
  unfold analyzeFile
  rw [h]
  simp

theorem countP_security_securityIssues (t : List Char) :
    (securityIssues t).countP (fun d => decide (d.kind = DefectKind.security))
      = if containsEval t then 1 else 0 := by
  unfold securityIssues
  cases hc : containsEval t <;> simp

theorem countP_complexity_securityIssues (t : List Char) (nm : String) :
    (securityIssues t).countP
        (fun d => decide (d.kind = DefectKind.complexity ∧ d.msg = complexityMsg nm)) = 0 := by
  unfold securityIssues
  cases hc : containsEval t <;> simp

theorem securityIssues_kind {t : List Char} {d : Defect} (h : d ∈ securityIssues t) :
    d.kind = DefectKind.security := by
  unfold securityIssues at h
  cases hc : containsEval t <;> rw [hc] at h <;> simp at h
  rw [h]

theorem complexityIssues_kind {body : List PyNode} {d : Defect} (h : d ∈ complexityIssues body) :
    d.kind = DefectKind.complexity := by
  obtain ⟨n, _, hn⟩ := List.mem_filterMap.mp h
  exact complexityOf_kind hn

theorem countP_security_complexityIssues (body : List PyNode) :
    (complexityIssues body).countP (fun d => decide (d.kind = DefectKind.security)) = 0 := by
  rw [List.countP_eq_zero]
  intro d hd
  have := complexityIssues_kind hd
  simp [this]

/-! ## Properties of the accumulating loops -/

theorem foldl_append_singleton {α β : Type} (g : α → β) :
    ∀ (l : List α) (init : List β),
      l.foldl (fun acc x => acc ++ [g x]) init = init ++ l.map g
  | [], init => by simp
  | x :: xs, init => by
    rw [List.foldl_cons, foldl_append_singleton g xs (init ++ [g x])]
    simp

theorem dependencyMapper_eq (files : List PyFile) :
    dependencyMapper files = files.map (fun f => (f.path, fileDeps f)) := by
  unfold dependencyMapper
  rw [foldl_append_singleton (fun f => (f.path, fileDeps f)) files []]
  simp

theorem staticAnalyzer_eq (files : List PyFile) :
    staticAnalyzer files = files.map (fun f => (f.path, analyzeFile f)) := by
  unfold staticAnalyzer
  rw [foldl_append_singleton (fun f => (f.path, analyzeFile f)) files []]
  simp

theorem fixPlanner_eq (issues : List (String × List Defect)) (tests : TestResult) :
    fixPlanner issues tests
      = (issues.flatMap fun p => p.2.map (defectAction p.1))
        ++ (if testSuccess tests then []
            else [{ file := none, action := ActionKind.investigate_test_failure }]) := by
  have h1 : ∀ (init : List Action),
      issues.foldl (fun plan p => p.2.foldl (fun plan i => plan ++ [defectAction p.1 i]) plan) init
        = init ++ (issues.flatMap fun p => p.2.map (defectAction p.1)) := by
    induction issues with
    | nil => intro init; simp
    | cons p ps ih =>
      intro init
      rw [List.foldl_cons, foldl_append_singleton (defectAction p.1) p.2 init, ih]
      simp
  simp only [fixPlanner, h1 []]
  cases hts : testSuccess tests <;> simp

theorem length_flatMap_defects (issues : List (String × List Defect)) :
    ((issues.flatMap fun p => p.2.map (defectAction p.1)).length)
      = (issues.map fun p => p.2.length).sum := by
  induction issues with
  | nil => rfl
  | cons p ps ih => simp [ih]

theorem getLast?_append_singleton {α : Type} (l : List α) (a : α) :
    (l ++ [a]).getLast? = some a :=
  List.getLast?_concat l

/-! ## Claims -/

/-- C1 (counterexample): the claim that `fix_eval` leaves zero occurrences
of the token is false: the file text `x = eval(s)` holds one occurrence,
the rewritten text is `x = ast.literal_eval(s)`, and that text still holds
one occurrence of the token (inside the replacement call). -/
theorem c1_counterexample :
    countEval ("x = eval(s)".toList) = 1
    ∧ fixEvalText ("x = eval(s)".toList) = "x = ast.literal_eval(s)".toList
    ∧ countEval (fixEvalText ("x = eval(s)".toList)) ≠ 0 :=
  ⟨by decide, by decide, by decide⟩

/-- C1 (amended): applying `fix_eval` to a text with N occurrences of the
token replaces each of them with the safe equivalent, growing the text by
12 characters per occurrence; since the replacement itself contains the
token, the result again contains exactly N occurrences, not zero. -/
theorem c1_fix_eval_token_count (t : List Char) :
    countEval (fixEvalText t) = countEval t
    ∧ (fixEvalText t).length = t.length + 12 * countEval t :=
  ⟨countEval_fixEvalText t, length_fixEvalText t⟩

/-- C2 (counterexample): the `fix_eval` substitution is not idempotent:
re-applying it to the rewritten text `x = ast.literal_eval(s)` changes it
again, to `x = ast.literal_ast.literal_eval(s)`. -/
theorem c2_counterexample :
    fixEvalText (fixEvalText ("x = eval(s)".toList)) ≠ fixEvalText ("x = eval(s)".toList)
    ∧ fixEvalText (fixEvalText ("x = eval(s)".toList))
        = "x = ast.literal_ast.literal_eval(s)".toList :=
  ⟨by decide, by decide⟩

/-- C2 (amended): the `fix_eval` substitution is a no-op exactly on the
texts that contain no occurrence of the token; on any text that still
contains the token — in particular on every text it has itself produced
from a file that contained the token — re-applying changes the text
again. -/
theorem c2_fixed_point_iff_token_free (t : List Char) :
    (fixEvalText t = t ↔ countEval t = 0)
    ∧ (countEval t ≠ 0 → fixEvalText (fixEvalText t) ≠ fixEvalText t) := by
  refine ⟨fixEvalText_eq_self_iff t, ?_⟩
  intro h hfix
  have h2 := (fixEvalText_eq_self_iff (fixEvalText t)).mp hfix
  rw [countEval_fixEvalText] at h2
  exact h h2

theorem c2_witness :
    fixEvalText (fixEvalText ("eval(".toList)) ≠ fixEvalText ("eval(".toList) :=
  (c2_fixed_point_iff_token_free ("eval(".toList)).2 (by decide)

/-- C4: the plan holds one action per defect, built by iterating the report
in file order and each file in defect order, so its length is the total
defect count plus one exactly when the test result is a failure; the
optional `investigate_test_failure` entry is last and carries no file. -/
theorem c4_plan_shape (issues : List (String × List Defect)) (tests : TestResult) :
    (fixPlanner issues tests).length
        = (issues.map fun p => p.2.length).sum + (if testSuccess tests then 0 else 1)
    ∧ (testSuccess tests = false →
        (fixPlanner issues tests).getLast?
          = some { file := none, action := ActionKind.investigate_test_failure })
    ∧ (fixPlanner issues tests).take ((issues.map fun p => p.2.length).sum)
        = issues.flatMap fun p => p.2.map (defectAction p.1) := by
  have he := fixPlanner_eq issues tests
  have hlen := length_flatMap_defects issues
  refine ⟨?_, ?_, ?_⟩
  · rw [he]
    cases hts : testSuccess tests <;> simp [hlen]
  · intro hts
    rw [he, hts]
    simp only [Bool.false_eq_true, if_false]
    exact getLast?_append_singleton _ _
  · rw [he, ← hlen]
    cases hts : testSuccess tests
    · rw [if_neg (by simp [hts])]
      exact List.take_left _ _
    · rw [if_pos (by simp [hts]), List.append_nil]
      exact List.take_length _

theorem c4_witness :
    (fixPlanner [("a.py", [{ kind := DefectKind.security, msg := secMsg }])]
        (TestResult.external false "" "")).getLast?
      = some { file := none, action := ActionKind.investigate_test_failure } :=
  (c4_plan_shape [("a.py", [{ kind := DefectKind.security, msg := secMsg }])]
    (TestResult.external false "" "")).2.1 rfl

/-- C7: the dependency mapper never aborts the batch: every input file gets
an entry, and a file whose text fails to parse is mapped to the empty
list. -/
theorem c7_parse_failure_empty_deps (files : List PyFile) (f : PyFile)
    (hf : f ∈ files) (hp : f.parsed = none) :
    (f.path, ([] : List String)) ∈ dependencyMapper files
    ∧ (dependencyMapper files).length = files.length := by
  constructor
  · rw [dependencyMapper_eq]
    have hd : fileDeps f = [] := by
      unfold fileDeps
      rw [hp]
    have hm : (f.path, fileDeps f) ∈ files.map (fun g => (g.path, fileDeps g)) :=
      List.mem_map_of_mem (fun g => (g.path, fileDeps g)) hf
    rw [hd] at hm
    exact hm
  · rw [dependencyMapper_eq]
    simp

theorem c7_witness :
    ("bad.py", ([] : List String)) ∈ dependencyMapper [exFile, badFile]
    ∧ (dependencyMapper [exFile, badFile]).length = ([exFile, badFile] : List PyFile).length :=
  c7_parse_failure_empty_deps [exFile, badFile] badFile
    (List.mem_cons_of_mem _ (List.mem_cons_self _ _)) rfl

/-- C8: the test harness never raises: an exception of the external runner
(timeout or spawn failure) becomes a failed external result whose stderr
is the exception message; a completed run yields the external shape with
success meaning exit code zero; without a tests directory the fallback
shape is produced with success meaning zero compile errors. -/
theorem c8_test_harness_error_handling (repo : RepoState) :
    (∀ msg, repo.hasTestsDir = true → repo.pytestOutcome = .failed msg →
        testRunner repo = .external false "" msg)
    ∧ (∀ code out err, repo.hasTestsDir = true → repo.pytestOutcome = .completed code out err →
        testRunner repo = .external (decide (code = 0)) out err)
    ∧ (repo.hasTestsDir = false →
        testRunner repo
          = .fallback (decide ((compileErrors repo.files).length = 0))
              (compileErrors repo.files)) := by
  refine ⟨?_, ?_, ?_⟩
  · intro msg h1 h2
    unfold testRunner
    rw [h1, h2]
    simp [runCmd]
  · intro code out err h1 h2
    unfold testRunner
    rw [h1, h2]
    simp [runCmd]
  · intro h1
    unfold testRunner
    rw [h1]
    simp

theorem c8_witness :
    testRunner repoFail = TestResult.external false "" "TimeoutExpired" :=
  (c8_test_harness_error_handling repoFail).1 "TimeoutExpired" rfl rfl

/-- C10: the dependency map and the defect report each have exactly one
entry per input file, keyed by the file path, in file-set order (the
association-list model of the Python dict is valid because a FileSet holds
no duplicate paths). -/
theorem c10_report_keys (files : List PyFile) (_nodup : (files.map PyFile.path).Nodup) :
    (dependencyMapper files).map Prod.fst = files.map PyFile.path
    ∧ (staticAnalyzer files).map Prod.fst = files.map PyFile.path := by
  constructor
  · rw [dependencyMapper_eq]
    simp
  · rw [staticAnalyzer_eq]
    simp

theorem c10_witness :
    (dependencyMapper [exFile, badFile]).map Prod.fst = [exFile, badFile].map PyFile.path
    ∧ (staticAnalyzer [exFile, badFile]).map Prod.fst = [exFile, badFile].map PyFile.path :=
  c10_report_keys [exFile, badFile] (by decide)

/-- C5: one security defect for a file whose text has any positive number
of occurrences of the token, none for a token-free file. -/
theorem c5_security_defect_count (f : PyFile) :
    (0 < countEval f.text →
        (analyzeFile f).countP (fun d => decide (d.kind = DefectKind.security)) = 1)
    ∧ (countEval f.text = 0 →
        (analyzeFile f).countP (fun d => decide (d.kind = DefectKind.security)) = 0) := by
  have hbase : (analyzeFile f).countP (fun d => decide (d.kind = DefectKind.security))
      = if containsEval f.text then 1 else 0 := by
    cases hp : f.parsed with
    | some body =>
      rw [analyzeFile_parsed hp, List.countP_append, countP_security_securityIssues,
        countP_security_complexityIssues]
      omega
    | none =>
      rw [analyzeFile_unparsed hp, countP_security_securityIssues]
  constructor
  · intro h
    rw [hbase, if_pos ((containsEval_iff f.text).mpr h)]
  · intro h
    rw [hbase, if_neg ?_]
    intro hc
    have := (containsEval_iff f.text).mp hc
    omega

theorem c5_witness :
    (analyzeFile exFile).countP (fun d => decide (d.kind = DefectKind.security)) = 1 :=
  (c5_security_defect_count exFile).1 (by decide)

/-- C9: the security detection is a pure substring test, so a file whose
text contains the safe replacement call still triggers exactly one
security defect, and the text produced by `fix_eval` from a file that
contained the token still contains the token. -/
theorem c9_security_check_substring (f : PyFile) :
    (litTok <:+: f.text →
        (analyzeFile f).countP (fun d => decide (d.kind = DefectKind.security)) = 1)
    ∧ (containsEval f.text = true → containsEval (fixEvalText f.text) = true) := by
  constructor
  · intro hinf
    obtain ⟨u, v, huv⟩ := hinf
    have htok : "eval(".toList <:+: f.text := by
      refine ⟨u ++ "ast.literal_".toList, v, ?_⟩
      rw [← huv]
      have hsplit : litTok = "ast.literal_".toList ++ "eval(".toList := by decide
      rw [hsplit]
      simp [List.append_assoc]
    have hc : containsEval f.text = true := containsEval_of_substring f.text htok
    have hbase : (analyzeFile f).countP (fun d => decide (d.kind = DefectKind.security))
        = if containsEval f.text then 1 else 0 := by
      cases hp : f.parsed with
      | some body =>
        rw [analyzeFile_parsed hp, List.countP_append, countP_security_securityIssues,
          countP_security_complexityIssues]
        omega
      | none =>
        rw [analyzeFile_unparsed hp, countP_security_securityIssues]
    rw [hbase, if_pos hc]
  · intro h
    have h1 := (containsEval_iff f.text).mp h
    have h2 : 0 < countEval (fixEvalText f.text) := by
      rw [countEval_fixEvalText]
      exact h1
    exact (containsEval_iff (fixEvalText f.text)).mpr h2

theorem c9_witness :
    (analyzeFile exLitFile).countP (fun d => decide (d.kind = DefectKind.security)) = 1 :=
  (c9_security_check_substring exLitFile).1 ⟨"y = ".toList, "z)".toList, by decide⟩

/-- C3: within one file, the number of complexity defects whose message
names a function `nm` equals the number of walked function-definition
nodes named `nm` whose source segment spans more than 120 lines — exactly
one defect per oversized function and none for any function of at most
120 lines; the walk enumerates every node of the parsed module exactly
once. -/
theorem c3_complexity_defect_count (f : PyFile) (body : List PyNode)
    (h : f.parsed = some body) (nm : String) :
    (analyzeFile f).countP
        (fun d => decide (d.kind = DefectKind.complexity ∧ d.msg = complexityMsg nm))
      = (moduleWalk body).countP (oversizedNamed nm)
    ∧ (moduleWalk body).length = nodeListSize body + 1 := by
  constructor
  · rw [analyzeFile_parsed h, List.countP_append, countP_complexity_securityIssues]
    unfold complexityIssues
    rw [countP_filterMap]
    have hfun :
        (fun n => ((complexityOf n).map
            (fun d => decide (d.kind = DefectKind.complexity ∧ d.msg = complexityMsg nm))).getD
              false)
          = oversizedNamed nm := funext (complexityOf_pointwise nm)
    rw [hfun]
    omega
  · rw [moduleWalk, length_astWalk, nodeListSize_cons]
    simp [nodeChildren, nodeListSize]
    omega

theorem c3_witness :
    (analyzeFile exFile).countP
        (fun d => decide (d.kind = DefectKind.complexity ∧ d.msg = complexityMsg "big"))
      = (moduleWalk exBody).countP (oversizedNamed "big")
    ∧ (moduleWalk exBody).length = nodeListSize exBody + 1 :=
  c3_complexity_defect_count exFile exBody rfl "big"

/-- C6 (amended): within one file all security defects precede all
complexity defects, and the complexity defects appear in the order of the
breadth-first (level-order) walk that `ast.walk` performs — not in
pre-order; for a file whose oversized functions are all at top level the
two orders coincide. -/
theorem c6_order (f : PyFile) (body : List PyNode) (h : f.parsed = some body) :
    analyzeFile f
        = (analyzeFile f).filter (fun d => decide (d.kind = DefectKind.security))
          ++ (analyzeFile f).filter (fun d => decide (d.kind = DefectKind.complexity))
    ∧ (analyzeFile f).filter (fun d => decide (d.kind = DefectKind.complexity))
        = (moduleWalk body).filterMap complexityOf := by
  have he := analyzeFile_parsed h
  have hss : (securityIssues f.text).filter (fun d => decide (d.kind = DefectKind.security))
      = securityIssues f.text := by
    rw [List.filter_eq_self]
    intro d hd
    simp [securityIssues_kind hd]
  have hsc : (securityIssues f.text).filter (fun d => decide (d.kind = DefectKind.complexity))
      = [] := by
    rw [List.filter_eq_nil_iff]
    intro d hd
    simp [securityIssues_kind hd]
  have hcs : (complexityIssues body).filter (fun d => decide (d.kind = DefectKind.security))
      = [] := by
    rw [List.filter_eq_nil_iff]
    intro d hd
    simp [complexityIssues_kind hd]
  have hcc : (complexityIssues body).filter (fun d => decide (d.kind = DefectKind.complexity))
      = complexityIssues body := by
    rw [List.filter_eq_self]
    intro d hd
    simp [complexityIssues_kind hd]
  constructor
  · rw [he, List.filter_append, List.filter_append, hss, hsc, hcs, hcc]
    simp
  · rw [he, List.filter_append, hsc, hcc]
    simp [complexityIssues]

theorem c6_witness :
    analyzeFile nestedFile
        = (analyzeFile nestedFile).filter (fun d => decide (d.kind = DefectKind.security))
          ++ (analyzeFile nestedFile).filter (fun d => decide (d.kind = DefectKind.complexity))
    ∧ (analyzeFile nestedFile).filter (fun d => decide (d.kind = DefectKind.complexity))
        = (moduleWalk nestedBody).filterMap complexityOf :=
  c6_order nestedFile nestedBody rfl

/-- C6 (counterexample): on a file with an oversized nested function the
complexity defects are emitted in breadth-first order (A, B, A1), which
differs from the pre-order of the syntax tree (A, A1, B) that the claim
asserts. -/
theorem c6_counterexample :
    ((analyzeFile nestedFile).filter
        (fun d => decide (d.kind = DefectKind.complexity))).map Defect.msg
      = [complexityMsg "A", complexityMsg "B", complexityMsg "A1"]
    ∧ ((specPreorderList nestedBody).filterMap complexityOf).map Defect.msg
      = [complexityMsg "A", complexityMsg "A1", complexityMsg "B"]
    ∧ ((analyzeFile nestedFile).filter
        (fun d => decide (d.kind = DefectKind.complexity))).map Defect.msg
      ≠ ((specPreorderList nestedBody).filterMap complexityOf).map Defect.msg := by
  have h1 : ((analyzeFile nestedFile).filter
      (fun d => decide (d.kind = DefectKind.complexity))).map Defect.msg
      = [complexityMsg "A", complexityMsg "B", complexityMsg "A1"] := by
    simp [analyzeFile, nestedFile, nestedBody, securityIssues, containsEval, complexityIssues,
      moduleWalk, astWalk, nodeChildren, complexityOf, List.filterMap]
  have h2 : ((specPreorderList nestedBody).filterMap complexityOf).map Defect.msg
      = [complexityMsg "A", complexityMsg "A1", complexityMsg "B"] := by
    simp [specPreorderList, nestedBody, nodeChildren, complexityOf, List.filterMap]
  refine ⟨h1, h2, ?_⟩
  rw [h1, h2]
  intro hcontra
  have := List.getElem_of_eq hcontra (by simp : 1 < 3)
  simp at this
  exact absurd (complexityMsg_inj this) (by decide)

end CodeBuddy
